import Mathlib

/-!
# Verification of the `syt` crate (YAML comment injection, append, lazy reading)

Shallow embedding of `src/comments.rs`, `src/append.rs` and `src/lazy.rs`.
Strings are modelled as `List Char`; byte positions are computed with an
explicit UTF-8 size function, matching Rust's `char_indices` byte offsets.
-/

namespace Syt

/-- UTF-8 encoded size (in bytes) of a character, as used by Rust's
`str::char_indices` to advance byte offsets. -/
def utf8Size (c : Char) : Nat :=
  if c.toNat ≤ 0x7F then 1
  else if c.toNat ≤ 0x7FF then 2
  else if c.toNat ≤ 0xFFFF then 3
  else 4

/-- Total UTF-8 byte length of a character list. -/
def utf8Len (l : List Char) : Nat := (l.map utf8Size).sum

theorem utf8Size_pos (c : Char) : 0 < utf8Size c := by
  unfold utf8Size
  split <;> [skip; split <;> [skip; split]] <;> omega

theorem utf8Len_nil : utf8Len [] = 0 := rfl

theorem utf8Len_cons (c : Char) (l : List Char) :
    utf8Len (c :: l) = utf8Size c + utf8Len l := by
  simp [utf8Len]

theorem utf8Len_append (a b : List Char) :
    utf8Len (a ++ b) = utf8Len a + utf8Len b := by
  induction a with
  | nil => simp [utf8Len]
  | cons c cs ih => simp [utf8Len_cons, ih, Nat.add_assoc]

/-- Rust's `char::is_control`: C0 and C1 control codes. -/
def rustIsControl (c : Char) : Bool :=
  c.toNat ≤ 0x1F || (0x7F ≤ c.toNat && c.toNat ≤ 0x9F)

/-- Rust's `char::is_whitespace`: the Unicode `White_Space` property. -/
def rustIsWhitespace (c : Char) : Bool :=
  c.toNat == 0x09 || c.toNat == 0x0A || c.toNat == 0x0B || c.toNat == 0x0C ||
  c.toNat == 0x0D || c.toNat == 0x20 || c.toNat == 0x85 || c.toNat == 0xA0 ||
  c.toNat == 0x1680 || (0x2000 ≤ c.toNat && c.toNat ≤ 0x200A) ||
  c.toNat == 0x2028 || c.toNat == 0x2029 || c.toNat == 0x202F ||
  c.toNat == 0x205F || c.toNat == 0x3000

/-- `KeyData` from `src/comments.rs`: recognized key text and its starting
byte position within the line. -/
structure KeyData where
  str : List Char
  start : Nat
deriving DecidableEq, Repr

/-- The scanning loop of `get_key_name` in `src/comments.rs` (the
`for (i, c) in str.char_indices()` loop), carried out over the remaining
characters with `i` the current byte offset and `start`/`fin` the two
optional indices (`fin` models the Rust variable `end`).  Returns the final
`(start, end)` pair when both are set, as the Rust epilogue requires. -/
def getKeyLoop : List Char → Nat → Option Nat → Option Nat → Option (Nat × Nat)
  | [], _, start, fin =>
    match start, fin with
    | some s, some e => some (s, e)
    | _, _ => none
  | c :: rest, i, start, fin =>
    if rustIsControl c then
      getKeyLoop rest (i + utf8Size c) start fin
    else if c = '#' ∧ (start = none ∨ fin = none) then
      none
    else if (c = '-' ∨ c = '?' ∨ rustIsWhitespace c) ∧ start = none then
      getKeyLoop rest (i + utf8Size c) start fin
    else if c = ':' then
      if start = none then none
      else getKeyLoop rest (i + utf8Size c) start (some (i - 1))
    else
      getKeyLoop rest (i + utf8Size c) (if start = none then some i else start) fin

/-- Characters of `l` whose starting byte offset (beginning at `i`) lies in
`[lo, hi)`.  Models the Rust byte slice `&str[lo..hi]`; in every reachable
use below `lo` and `hi` are character boundaries, where the two coincide. -/
def sliceBytes : List Char → Nat → Nat → Nat → List Char
  | [], _, _, _ => []
  | c :: cs, i, lo, hi =>
    (if lo ≤ i ∧ i < hi then [c] else []) ++ sliceBytes cs (i + utf8Size c) lo hi

/-- `get_key_name` from `src/comments.rs`: scan a line for a YAML-key-like
shape; on success the key text is the byte range `[start, end+1)` of the
line (Rust `&str[start..=end]`) and `start` is the key's byte column. -/
def get_key_name (str : List Char) : Option KeyData :=
  match getKeyLoop str 0 none none with
  | some (s, e) => some ⟨sliceBytes str 0 s (e + 1), s⟩
  | none => none

example : get_key_name "foo".data = none := by decide
example : get_key_name "foo:".data = some ⟨"foo".data, 0⟩ := by decide
example : get_key_name "  foo:".data = some ⟨"foo".data, 2⟩ := by decide
example : get_key_name "  foo bar:".data = some ⟨"foo bar".data, 2⟩ := by decide
example : get_key_name "- foo bar:".data = some ⟨"foo bar".data, 2⟩ := by decide
example : get_key_name "? foo bar:".data = some ⟨"foo bar".data, 2⟩ := by decide
example : get_key_name "a: b:c".data = some ⟨"a: b".data, 0⟩ := by decide

/-!
## The comment-injecting stream filter (`Commenter` in `src/comments.rs`)
-/

/-- Split a character list at every `'\n'` (the separators are dropped);
always returns at least one (possibly empty) segment. -/
def splitOnNl : List Char → List (List Char)
  | [] => [[]]
  | c :: cs =>
    let r := splitOnNl cs
    if c = '\n' then [] :: r
    else
      match r with
      | [] => [[c]]
      | h :: t => (c :: h) :: t

/-- Remove one trailing `'\r'` from a segment, for `"\r\n"` line endings. -/
def stripCr (l : List Char) : List Char :=
  if l.getLast? = some '\r' then l.dropLast else l

/-- Rust's `str::lines()`: split on `'\n'`, treat `"\r\n"` as a single line
ending (each segment except the final one was terminated by `'\n'`, so one
trailing `'\r'` is stripped from it), and do not yield a final empty line
for a trailing line ending.  `splitOnNl` never returns `[]`, so
`getLastD []` is the final segment. -/
def rustLines (s : List Char) : List (List Char) :=
  if (splitOnNl s).getLastD [] = [] then (splitOnNl s).dropLast.map stripCr
  else (splitOnNl s).dropLast.map stripCr ++ [(splitOnNl s).getLastD []]

example : rustLines "a\nb".data = ["a".data, "b".data] := by decide
example : rustLines "a\nb\n".data = ["a".data, "b".data] := by decide
example : rustLines "a\r\nb\n\n".data = ["a".data, "b".data, []] := by decide
example : rustLines [] = [] := by decide

/-- The comment lines emitted by `Commenter::flush_buffer` for comment text
sub-lines `ls` with the given spacer: each empty sub-line becomes
`spacer`, each non-empty sub-line becomes `spacer ++ "# " ++ line`
(newlines are appended by `renderComment`). -/
def commentLine (spacer line : List Char) : List Char :=
  if line = [] then spacer else spacer ++ '#' :: ' ' :: line

/-- The full text written for the comment sub-lines: each rendered line
followed by `'\n'`, exactly as the two `write_fmt` calls in
`Commenter::flush_buffer` produce. -/
def renderComment (spacer : List Char) (ls : List (List Char)) : List Char :=
  ls.flatMap (fun line => commentLine spacer line ++ ['\n'])

/-- State of a `Commenter` session: `out` is the content written to the
underlying sink, `dbg` records the `KeyData` values printed to stdout by the
`println!("key data: {key:?}")` statement in `flush_buffer`, and `buffer`
is the line buffer. -/
structure CState where
  out : List Char
  dbg : List KeyData
  buffer : List Char
deriving DecidableEq, Repr

/-- The freshly constructed `Commenter` (`Commenter::new`): empty sink
content, nothing printed, empty line buffer. -/
def initCState : CState := ⟨[], [], []⟩

/-- `Commenter::flush_buffer`: if the buffer is non-empty, run the key
recognizer; on a recognized key, print it (modelled in `dbg`) and, when the
resolver returns comment text, write the rendered comment lines; then
forward the buffered line verbatim and clear the buffer. -/
def flush_buffer (cb : KeyData → Option (List Char)) (st : CState) : CState :=
  if st.buffer = [] then st
  else
    match get_key_name st.buffer with
    | some key =>
      let withDbg : CState := ⟨st.out, st.dbg ++ [key], st.buffer⟩
      let withComments : CState :=
        match cb key with
        | some s =>
          ⟨withDbg.out ++ renderComment (List.replicate key.start ' ') (rustLines s),
           withDbg.dbg, withDbg.buffer⟩
        | none => withDbg
      ⟨withComments.out ++ st.buffer, withComments.dbg, []⟩
    | none => ⟨st.out ++ st.buffer, st.dbg, []⟩

/-- The character-processing loop of `Commenter::write`: push each
character onto the buffer and flush on `'\n'`. -/
def writeChars (cb : KeyData → Option (List Char)) (st : CState) (s : List Char) : CState :=
  s.foldl
    (fun st c =>
      let st' : CState := ⟨st.out, st.dbg, st.buffer ++ [c]⟩
      if c = '\n' then flush_buffer cb st' else st')
    st

/-- `Commenter::flush`: one final `flush_buffer` (the inner writer's own
flush does not change the modelled state). -/
def commenterFlush (cb : KeyData → Option (List Char)) (st : CState) : CState :=
  flush_buffer cb st

/-- A full write session: a sequence of (already decoded) write chunks
followed by the terminal flush. -/
def commenterSession (cb : KeyData → Option (List Char)) (chunks : List (List Char)) : CState :=
  commenterFlush cb (chunks.foldl (writeChars cb) initCState)

/-!
## Byte-level `Commenter::write` and UTF-8 validation
-/

/-- Incremental UTF-8 validation/decoding, modelling `std::str::from_utf8`.
The pending state `some (k, cp, lo, hi)` means `k` continuation bytes are
still expected, `cp` is the partial code point, and the next byte must lie
in `[lo, hi]` (the first continuation byte of a sequence has a restricted
range, ruling out overlong encodings, surrogates and code points above
`0x10FFFF`, exactly as Rust's validator does). -/
def utf8DecodeAux : List Nat → Option (Nat × Nat × Nat × Nat) → Option (List Char)
  | [], pending =>
    match pending with
    | none => some []
    | some _ => none
  | b :: rest, none =>
    if b < 0x80 then (utf8DecodeAux rest none).map (Char.ofNat b :: ·)
    else if b < 0xC2 then none
    else if b ≤ 0xDF then utf8DecodeAux rest (some (1, b - 0xC0, 0x80, 0xBF))
    else if b ≤ 0xEF then
      utf8DecodeAux rest
        (some (2, b - 0xE0, if b = 0xE0 then 0xA0 else 0x80, if b = 0xED then 0x9F else 0xBF))
    else if b ≤ 0xF4 then
      utf8DecodeAux rest
        (some (3, b - 0xF0, if b = 0xF0 then 0x90 else 0x80, if b = 0xF4 then 0x8F else 0xBF))
    else none
  | b :: rest, some (k, cp, lo, hi) =>
    if lo ≤ b ∧ b ≤ hi then
      if k = 1 then (utf8DecodeAux rest none).map (Char.ofNat (cp * 0x40 + (b - 0x80)) :: ·)
      else utf8DecodeAux rest (some (k - 1, cp * 0x40 + (b - 0x80), 0x80, 0xBF))
    else none

/-- UTF-8 decoding of a whole byte sequence (`std::str::from_utf8`):
`none` exactly when the bytes are not valid UTF-8. -/
def utf8Decode (l : List Nat) : Option (List Char) :=
  utf8DecodeAux l none

/-- `Commenter::write` at the byte level: decode the chunk as UTF-8 (the
`std::str::from_utf8(buf)` call); on failure return the error with the
commenter unchanged (the `?` returns before any mutation); on success run
the character loop and report the full chunk length as consumed. -/
def commenterWrite (cb : KeyData → Option (List Char)) (st : CState) (buf : List Nat) :
    CState × Except Unit Nat :=
  match utf8Decode buf with
  | none => (st, Except.error ())
  | some s => (writeChars cb st s, Except.ok buf.length)

example : utf8Decode [0x61, 0x62] = some "ab".data := by decide
example : utf8Decode [0xC3] = none := by decide
example : utf8Decode [0xC3, 0xA9] = some ['é'] := by decide
example : utf8Decode [0xED, 0xA0, 0x80] = none := by decide
example : utf8Decode [0xC0, 0x80] = none := by decide

/-!
## Multi-document files: `src/append.rs` and `src/lazy.rs`
-/

/-- `append_or_new` from `src/append.rs`, as a function on file content.
`content` is the current content of the file opened in append/create mode
(`[]` for an empty or nonexistent file); `encoded` is the byte stream the
external YAML encoder writes for the appended value (modelled from the
spec: the encoder is an external collaborator that emits the document as
`key: value` lines). If the file is non-empty, the bytes `"\n---\n"` are
written first; then the encoder output is appended. -/
def append_or_new (content encoded : List Char) : List Char :=
  if content.length ≠ 0 then content ++ "\n---\n".data ++ encoded
  else content ++ encoded

/-- Does a line start with `"---"` (Rust `line.starts_with("---")`)?  -/
def startsWithSep (l : List Char) : Bool :=
  l.take 3 = ['-', '-', '-']

/-- The loop of `LazyDocStart::next` in `src/lazy.rs`, over the remaining
(already `'\n'`-stripped) lines of the file with the current document
buffer: a separator line breaks only when the buffer is non-empty,
otherwise every line (separators included) is pushed onto the buffer; at
the end the buffered lines joined with `'\n'` are yielded when non-empty.
Returns the yielded item and the remaining lines. -/
def docNextAux (buf : List (List Char)) :
    List (List Char) → Option (List Char) × List (List Char)
  | [] => (if buf.isEmpty then none else some (List.intercalate ['\n'] buf), [])
  | l :: rest =>
    if startsWithSep l ∧ ¬ buf.isEmpty then (some (List.intercalate ['\n'] buf), rest)
    else docNextAux (buf ++ [l]) rest

/-- `LazyDocStart::next`: start with an empty document buffer. -/
def lazyDocStartNext (ls : List (List Char)) : Option (List Char) × List (List Char) :=
  docNextAux [] ls

/-- `LazyValues::next` from `src/lazy.rs`, with the external YAML parser
(`serde_yml::from_str`) abstracted as `parse`: take the next document
string and map a parse failure to `none` via `.ok()`. -/
def lazyValuesNext {E V : Type} (parse : List Char → Except E V)
    (ls : List (List Char)) : Option V × List (List Char) :=
  match lazyDocStartNext ls with
  | (some s, rest) => ((parse s).toOption, rest)
  | (none, rest) => (none, rest)

/-- `LazyDocs::next` from `src/lazy.rs`, with the external typed
deserializer (`serde_yml::from_value::<T>`) abstracted as `deser`: take the
next value and map a deserialization failure to `none` via `.ok()`. -/
def lazyDocsNext {E V E2 T : Type} (parse : List Char → Except E V)
    (deser : V → Except E2 T) (ls : List (List Char)) :
    Option T × List (List Char) :=
  match lazyValuesNext parse ls with
  | (some v, rest) => ((deser v).toOption, rest)
  | (none, rest) => (none, rest)

example :
    (lazyDocStartNext ["---".data, "a: 1".data, "---".data, "b: 2".data]).1
      = some "---\na: 1".data := by decide
example :
    (lazyDocStartNext ["---".data, "---".data, "a: 1".data]).1 = some "---".data := by decide

/-!
## Concrete resolver and encoder streams used by the concrete claims
-/

/-- The resolver of the concrete scenario: `"name"` maps to a one-line
comment, `"age"` to a two-line comment. -/
def personResolver : KeyData → Option (List Char) := fun k =>
  if k.str = "name".data then some "The name of the person.".data
  else if k.str = "age".data then some "The age of the person.\nIn years.".data
  else none

/-- Modelled from the spec: the external YAML encoder (out of scope per §1,
consumed per §6 as a line-oriented `key: value` stream) emits
`"name: John Doe\nage: 30\n"` for the mapping `{name: "John Doe", age: 30}`;
this matches the crate's own `test_to_string` expectation for the
uncommented output. -/
def personEncoded : List Char := "name: John Doe\nage: 30\n".data

/-!
## Line-level view of the filter (for the round-trip property)
-/

/-- A line that the YAML decoder treats as a no-op: optional leading spaces
followed by nothing (a blank line) or by a `'#'` comment.  Every line the
filter injects has this shape. -/
def isCommentLine (l : List Char) : Bool :=
  match l.dropWhile (fun c => decide (c = ' ')) with
  | [] => true
  | c :: _ => decide (c = '#')

/-- The comment lines (without trailing newlines) that `flush_buffer`
injects before a buffered line `buf`. -/
def commentLinesFor (cb : KeyData → Option (List Char)) (buf : List Char) :
    List (List Char) :=
  match get_key_name buf with
  | some key =>
    match cb key with
    | some s => (rustLines s).map (commentLine (List.replicate key.start ' '))
    | none => []
  | none => []

/-- The comment text (with newlines) that `flush_buffer` writes before a
buffered line `buf`. -/
def commentTextFor (cb : KeyData → Option (List Char)) (buf : List Char) : List Char :=
  match get_key_name buf with
  | some key =>
    match cb key with
    | some s => renderComment (List.replicate key.start ' ') (rustLines s)
    | none => []
  | none => []

/-- The `KeyData` values `flush_buffer` prints to stdout for a buffered
line `buf`. -/
def dbgFor (buf : List Char) : List KeyData :=
  match get_key_name buf with
  | some key => [key]
  | none => []

/-- Join lines into newline-terminated text. -/
def unlinesT (ls : List (List Char)) : List Char :=
  ls.flatMap (· ++ ['\n'])

/-- The lines of a newline-terminated text (inverse of `unlinesT` for
newline-free lines). -/
def linesT (t : List Char) : List (List Char) :=
  (splitOnNl t).dropLast

/-!
## Lemmas about the key recognizer scan
-/

/-- A character skipped by the leading-indentation rule of `get_key_name`:
a block-sequence marker, an explicit-key marker, or whitespace. -/
def skippable (c : Char) : Prop := c = '-' ∨ c = '?' ∨ rustIsWhitespace c

instance (c : Char) : Decidable (skippable c) :=
  inferInstanceAs (Decidable (c = '-' ∨ c = '?' ∨ rustIsWhitespace c))

theorem getKeyLoop_cons (c : Char) (rest : List Char) (i : Nat) (start fin : Option Nat) :
    getKeyLoop (c :: rest) i start fin =
      if rustIsControl c then getKeyLoop rest (i + utf8Size c) start fin
      else if c = '#' ∧ (start = none ∨ fin = none) then none
      else if (c = '-' ∨ c = '?' ∨ rustIsWhitespace c) ∧ start = none then
        getKeyLoop rest (i + utf8Size c) start fin
      else if c = ':' then
        if start = none then none
        else getKeyLoop rest (i + utf8Size c) start (some (i - 1))
      else getKeyLoop rest (i + utf8Size c) (if start = none then some i else start) fin := rfl

theorem getKeyLoop_control (c : Char) (rest : List Char) (i : Nat)
    (start fin : Option Nat) (h : rustIsControl c = true) :
    getKeyLoop (c :: rest) i start fin = getKeyLoop rest (i + utf8Size c) start fin := by
  rw [getKeyLoop_cons, if_pos h]

theorem skippable_ne_hash {c : Char} (h : skippable c) : c ≠ '#' := by
  rcases h with h | h | h
  · subst h; decide
  · subst h; decide
  · intro hc; subst hc; simp [rustIsWhitespace] at h

theorem skippable_ne_colon {c : Char} (h : skippable c) : c ≠ ':' := by
  rcases h with h | h | h
  · subst h; decide
  · subst h; decide
  · intro hc; subst hc; simp [rustIsWhitespace] at h

theorem getKeyLoop_skip (c : Char) (rest : List Char) (i : Nat) (fin : Option Nat)
    (hctl : rustIsControl c = false) (hsk : skippable c) :
    getKeyLoop (c :: rest) i none fin = getKeyLoop rest (i + utf8Size c) none fin := by
  have hh := skippable_ne_hash hsk
  rw [getKeyLoop_cons, if_neg (by simp [hctl]), if_neg (fun hx => hh hx.1),
    if_pos ⟨hsk, rfl⟩]

theorem getKeyLoop_pre (pre : List Char) (rest : List Char) (i : Nat)
    (h : ∀ c ∈ pre, skippable c) :
    getKeyLoop (pre ++ rest) i none none = getKeyLoop rest (i + utf8Len pre) none none := by
  induction pre generalizing i with
  | nil => simp [utf8Len]
  | cons c cs ih =>
    have hc : skippable c := h c (by simp)
    have hrest : ∀ x ∈ cs, skippable x := fun x hx => h x (by simp [hx])
    by_cases hctl : rustIsControl c = true
    · rw [List.cons_append, getKeyLoop_control c _ _ _ _ hctl, ih _ hrest]
      rw [utf8Len_cons]; ring_nf
    · rw [List.cons_append,
        getKeyLoop_skip c _ _ _ (Bool.not_eq_true _ ▸ hctl) hc, ih _ hrest]
      rw [utf8Len_cons]; ring_nf

theorem getKeyLoop_key_start (c : Char) (rest : List Char) (i : Nat) (fin : Option Nat)
    (hctl : rustIsControl c = false) (hh : c ≠ '#') (hsk : ¬ skippable c) (hc : c ≠ ':') :
    getKeyLoop (c :: rest) i none fin = getKeyLoop rest (i + utf8Size c) (some i) fin := by
  rw [getKeyLoop_cons, if_neg (by simp [hctl]), if_neg (fun hx => hh hx.1),
    if_neg (fun hx => hsk hx.1), if_neg hc, if_pos rfl]

theorem getKeyLoop_key_mid (c : Char) (rest : List Char) (i s : Nat) (fin : Option Nat)
    (hctl : rustIsControl c = false) (hh : c ≠ '#') (hc : c ≠ ':') :
    getKeyLoop (c :: rest) i (some s) fin = getKeyLoop rest (i + utf8Size c) (some s) fin := by
  rw [getKeyLoop_cons, if_neg (by simp [hctl]), if_neg (fun hx => hh hx.1),
    if_neg (fun hx => Option.some_ne_none s hx.2), if_neg hc,
    if_neg (Option.some_ne_none s)]

theorem getKeyLoop_key_run (key rest : List Char) (i s : Nat)
    (h : ∀ c ∈ key, c ≠ ':' ∧ c ≠ '#') :
    getKeyLoop (key ++ rest) i (some s) none
      = getKeyLoop rest (i + utf8Len key) (some s) none := by
  induction key generalizing i with
  | nil => simp [utf8Len]
  | cons c cs ih =>
    have hc := h c (by simp)
    have hrest : ∀ x ∈ cs, x ≠ ':' ∧ x ≠ '#' := fun x hx => h x (by simp [hx])
    by_cases hctl : rustIsControl c = true
    · rw [List.cons_append, getKeyLoop_control c _ _ _ _ hctl, ih _ hrest]
      rw [utf8Len_cons]; ring_nf
    · rw [List.cons_append,
        getKeyLoop_key_mid c _ _ _ _ (Bool.not_eq_true _ ▸ hctl) hc.2 hc.1, ih _ hrest]
      rw [utf8Len_cons]; ring_nf

theorem getKeyLoop_colon (rest : List Char) (i s : Nat) (fin : Option Nat) :
    getKeyLoop (':' :: rest) i (some s) fin
      = getKeyLoop rest (i + 1) (some s) (some (i - 1)) := by
  have hsz : utf8Size ':' = 1 := by decide
  rw [getKeyLoop_cons, if_neg (by decide : ¬ (rustIsControl ':' = true)),
    if_neg (fun hx => absurd hx.1 (by decide)),
    if_neg (fun hx => Option.some_ne_none s hx.2), if_pos rfl,
    if_neg (Option.some_ne_none s), hsz]

theorem getKeyLoop_after (c : Char) (rest : List Char) (i s e : Nat)
    (hctl : rustIsControl c = false) (hc : c ≠ ':') :
    getKeyLoop (c :: rest) i (some s) (some e)
      = getKeyLoop rest (i + utf8Size c) (some s) (some e) := by
  rw [getKeyLoop_cons, if_neg (by simp [hctl]),
    if_neg (fun hx => by rcases hx.2 with h | h <;> exact Option.some_ne_none _ h),
    if_neg (fun hx => Option.some_ne_none s hx.2), if_neg hc,
    if_neg (Option.some_ne_none s)]

theorem getKeyLoop_suffix (suf : List Char) (i s e : Nat) (h : ':' ∉ suf) :
    getKeyLoop suf i (some s) (some e) = some (s, e) := by
  induction suf generalizing i with
  | nil => simp [getKeyLoop]
  | cons c cs ih =>
    have hc : c ≠ ':' := fun hc => h (hc ▸ List.mem_cons_self c cs)
    have hrest : ':' ∉ cs := fun hm => h (List.mem_cons_of_mem c hm)
    by_cases hctl : rustIsControl c = true
    · rw [getKeyLoop_control c _ _ _ _ hctl, ih _ hrest]
    · rw [getKeyLoop_after c _ _ _ _ (Bool.not_eq_true _ ▸ hctl) hc, ih _ hrest]

/-!
## Lemmas about byte slicing
-/

theorem sliceBytes_append (a b : List Char) (i lo hi : Nat) :
    sliceBytes (a ++ b) i lo hi = sliceBytes a i lo hi ++ sliceBytes b (i + utf8Len a) lo hi := by
  induction a generalizing i with
  | nil => simp [sliceBytes, utf8Len]
  | cons c cs ih =>
    simp [sliceBytes, ih, utf8Len_cons]
    ring_nf

theorem sliceBytes_below (a : List Char) (i lo hi : Nat) (h : i + utf8Len a ≤ lo) :
    sliceBytes a i lo hi = [] := by
  induction a generalizing i with
  | nil => simp [sliceBytes]
  | cons c cs ih =>
    have hsz := utf8Size_pos c
    rw [utf8Len_cons] at h
    have h1 : ¬ (lo ≤ i ∧ i < hi) := fun hx => by omega
    simp [sliceBytes, h1]
    exact ih _ (by omega)

theorem sliceBytes_above (a : List Char) (i lo hi : Nat) (h : hi ≤ i) :
    sliceBytes a i lo hi = [] := by
  induction a generalizing i with
  | nil => simp [sliceBytes]
  | cons c cs ih =>
    have h1 : ¬ (lo ≤ i ∧ i < hi) := fun hx => by omega
    simp [sliceBytes, h1]
    exact ih _ (by omega)

theorem sliceBytes_all (a : List Char) (i lo hi : Nat) (h1 : lo ≤ i)
    (h2 : i + utf8Len a ≤ hi) : sliceBytes a i lo hi = a := by
  induction a generalizing i with
  | nil => simp [sliceBytes]
  | cons c cs ih =>
    have hsz := utf8Size_pos c
    rw [utf8Len_cons] at h2
    have hin : lo ≤ i ∧ i < hi := by
      constructor
      · exact h1
      · have := utf8Len.eq_1 cs ▸ (Nat.zero_le (utf8Len cs))
        omega
    simp [sliceBytes, hin]
    exact ih _ (by omega) (by omega)

/-!
## Lemmas about the stream filter
-/

theorem flush_buffer_empty (cb : KeyData → Option (List Char)) (st : CState)
    (h : st.buffer = []) : flush_buffer cb st = st := by
  rw [flush_buffer, if_pos h]

theorem flush_buffer_eq (cb : KeyData → Option (List Char)) (st : CState)
    (h : st.buffer ≠ []) :
    flush_buffer cb st =
      ⟨st.out ++ commentTextFor cb st.buffer ++ st.buffer,
       st.dbg ++ dbgFor st.buffer, []⟩ := by
  rw [flush_buffer, if_neg h]
  rcases hk : get_key_name st.buffer with _ | key
  · simp [commentTextFor, dbgFor, hk]
  · rcases hcb : cb key with _ | s
    · simp [commentTextFor, dbgFor, hk, hcb]
    · simp [commentTextFor, dbgFor, hk, hcb]

theorem writeChars_nil (cb : KeyData → Option (List Char)) (st : CState) :
    writeChars cb st [] = st := rfl

theorem writeChars_cons (cb : KeyData → Option (List Char)) (st : CState)
    (c : Char) (s : List Char) :
    writeChars cb st (c :: s) =
      writeChars cb
        (if c = '\n' then flush_buffer cb ⟨st.out, st.dbg, st.buffer ++ [c]⟩
         else ⟨st.out, st.dbg, st.buffer ++ [c]⟩) s := rfl

theorem writeChars_append (cb : KeyData → Option (List Char)) (st : CState)
    (a b : List Char) :
    writeChars cb st (a ++ b) = writeChars cb (writeChars cb st a) b :=
  List.foldl_append _ _ a b

theorem writeChars_no_nl (cb : KeyData → Option (List Char)) (s : List Char) :
    ∀ st : CState, '\n' ∉ s → writeChars cb st s = ⟨st.out, st.dbg, st.buffer ++ s⟩ := by
  induction s with
  | nil => intro st _; simp [writeChars_nil]
  | cons c cs ih =>
    intro st h
    have hc : ¬ (c = '\n') := fun hx => h (hx ▸ List.mem_cons_self c cs)
    have hrest : '\n' ∉ cs := fun hm => h (List.mem_cons_of_mem c hm)
    rw [writeChars_cons, if_neg hc, ih _ hrest]
    simp

theorem writeChars_line (cb : KeyData → Option (List Char)) (l : List Char)
    (o : List Char) (d : List KeyData) (h : '\n' ∉ l) :
    writeChars cb ⟨o, d, []⟩ (l ++ ['\n']) =
      ⟨o ++ (commentTextFor cb (l ++ ['\n']) ++ (l ++ ['\n'])),
       d ++ dbgFor (l ++ ['\n']), []⟩ := by
  rw [writeChars_append, writeChars_no_nl cb l _ h]
  simp only [List.nil_append]
  rw [writeChars_cons, if_pos rfl, writeChars_nil,
    flush_buffer_eq cb ⟨o, d, l ++ ['\n']⟩ (by simp)]
  simp

theorem writeChars_unlines (cb : KeyData → Option (List Char)) (ls : List (List Char)) :
    ∀ (o : List Char) (d : List KeyData), (∀ l ∈ ls, '\n' ∉ l) →
      writeChars cb ⟨o, d, []⟩ (unlinesT ls) =
        ⟨o ++ ls.flatMap (fun l => commentTextFor cb (l ++ ['\n']) ++ (l ++ ['\n'])),
         d ++ ls.flatMap (fun l => dbgFor (l ++ ['\n'])), []⟩ := by
  induction ls with
  | nil => intro o d _; simp [unlinesT, writeChars_nil]
  | cons l ls ih =>
    intro o d h
    have hl : '\n' ∉ l := h l (by simp)
    have hrest : ∀ x ∈ ls, '\n' ∉ x := fun x hx => h x (by simp [hx])
    have hu : unlinesT (l :: ls) = (l ++ ['\n']) ++ unlinesT ls := by
      simp [unlinesT]
    rw [hu, writeChars_append, writeChars_line cb l o d hl, ih _ _ hrest]
    simp

theorem session_unlines (cb : KeyData → Option (List Char)) (ls : List (List Char))
    (h : ∀ l ∈ ls, '\n' ∉ l) :
    commenterSession cb [unlinesT ls] =
      ⟨ls.flatMap (fun l => commentTextFor cb (l ++ ['\n']) ++ (l ++ ['\n'])),
       ls.flatMap (fun l => dbgFor (l ++ ['\n'])), []⟩ := by
  have : commenterSession cb [unlinesT ls]
      = commenterFlush cb (writeChars cb initCState (unlinesT ls)) := rfl
  rw [this, show initCState = ⟨[], [], []⟩ from rfl, writeChars_unlines cb ls [] [] h]
  rw [commenterFlush, flush_buffer_empty _ _ rfl]
  simp

theorem commentTextFor_none (buf : List Char) :
    commentTextFor (fun _ => none) buf = [] := by
  rw [commentTextFor]
  rcases get_key_name buf with _ | key <;> rfl

theorem flush_buffer_none (st : CState) :
    (flush_buffer (fun _ => none) st).out = st.out ++ st.buffer ∧
      (flush_buffer (fun _ => none) st).buffer = [] := by
  by_cases h : st.buffer = []
  · rw [flush_buffer_empty _ _ h, h]
    simp
  · rw [flush_buffer_eq _ _ h, commentTextFor_none]
    simp

theorem writeChars_none_inv (s : List Char) :
    ∀ st : CState,
      (writeChars (fun _ => none) st s).out ++ (writeChars (fun _ => none) st s).buffer
        = st.out ++ st.buffer ++ s := by
  induction s with
  | nil => intro st; simp [writeChars_nil]
  | cons c cs ih =>
    intro st
    rw [writeChars_cons]
    by_cases hc : c = '\n'
    · rw [if_pos hc, ih]
      rcases flush_buffer_none ⟨st.out, st.dbg, st.buffer ++ [c]⟩ with ⟨h1, h2⟩
      rw [h1, h2]
      simp
    · rw [if_neg hc, ih]
      simp

theorem foldl_writeChars_none_inv (chunks : List (List Char)) :
    ∀ st : CState,
      (chunks.foldl (writeChars (fun _ => none)) st).out
          ++ (chunks.foldl (writeChars (fun _ => none)) st).buffer
        = st.out ++ st.buffer ++ chunks.flatten := by
  induction chunks with
  | nil => intro st; simp
  | cons a l ih =>
    intro st
    rw [List.foldl_cons, ih, writeChars_none_inv]
    simp

/-!
## Lemmas about line splitting and comment-line erasure
-/

theorem splitOnNl_ne_nil (s : List Char) : splitOnNl s ≠ [] := by
  cases s with
  | nil => simp [splitOnNl]
  | cons c cs =>
    rw [splitOnNl]
    by_cases hc : c = '\n'
    · simp [hc]
    · simp only [if_neg hc]
      rcases splitOnNl cs with _ | ⟨h, t⟩ <;> simp

theorem splitOnNl_line (l : List Char) (t : List Char) (h : '\n' ∉ l) :
    splitOnNl (l ++ '\n' :: t) = l :: splitOnNl t := by
  induction l with
  | nil => simp [splitOnNl]
  | cons c cs ih =>
    have hc : ¬ (c = '\n') := fun hx => h (hx ▸ List.mem_cons_self c cs)
    have hrest : '\n' ∉ cs := fun hm => h (List.mem_cons_of_mem c hm)
    rw [List.cons_append, splitOnNl]
    simp only [if_neg hc, ih hrest]

theorem splitOnNl_unlines (ls : List (List Char)) (h : ∀ l ∈ ls, '\n' ∉ l) :
    splitOnNl (unlinesT ls) = ls ++ [[]] := by
  induction ls with
  | nil => simp [unlinesT, splitOnNl]
  | cons l ls ih =>
    have hl : '\n' ∉ l := h l (by simp)
    have hrest : ∀ x ∈ ls, '\n' ∉ x := fun x hx => h x (by simp [hx])
    have hu : unlinesT (l :: ls) = l ++ '\n' :: unlinesT ls := by
      simp [unlinesT]
    rw [hu, splitOnNl_line _ _ hl, ih hrest]
    simp

theorem linesT_unlines (ls : List (List Char)) (h : ∀ l ∈ ls, '\n' ∉ l) :
    linesT (unlinesT ls) = ls := by
  rw [linesT, splitOnNl_unlines ls h]
  simp

theorem mem_splitOnNl_no_nl (s : List Char) :
    ∀ seg ∈ splitOnNl s, '\n' ∉ seg := by
  induction s with
  | nil => intro seg hseg; simp [splitOnNl] at hseg; simp [hseg]
  | cons c cs ih =>
    intro seg hseg
    by_cases hc : c = '\n'
    · simp only [splitOnNl, if_pos hc, List.mem_cons] at hseg
      rcases hseg with hseg | hseg
      · simp [hseg]
      · exact ih seg hseg
    · simp only [splitOnNl, if_neg hc] at hseg
      rcases hr : splitOnNl cs with _ | ⟨h0, t0⟩
      · exact absurd hr (splitOnNl_ne_nil cs)
      · rw [hr] at hseg
        simp only [List.mem_cons] at hseg
        rcases hseg with rfl | hseg
        · intro hm
          rw [List.mem_cons] at hm
          rcases hm with hm | hm
          · exact hc hm.symm
          · exact ih h0 (by rw [hr]; exact List.mem_cons_self h0 t0) hm
        · exact ih seg (by rw [hr]; exact List.mem_cons_of_mem h0 hseg)

theorem stripCr_no_nl (l : List Char) (h : '\n' ∉ l) : '\n' ∉ stripCr l := by
  rw [stripCr]
  split
  · exact fun hm => h (List.dropLast_subset l hm)
  · exact h

theorem getLastD_mem {α : Type} (l : List α) (d : α) (h : l ≠ []) :
    l.getLastD d ∈ l := by
  induction l generalizing d with
  | nil => exact absurd rfl h
  | cons a t ih =>
    cases ht : t with
    | nil => simp [ht, List.getLastD]
    | cons b t2 =>
      rw [List.getLastD_cons]
      exact List.mem_cons_of_mem a (ht ▸ ih a (by simp [ht]))

theorem mem_rustLines_no_nl (s : List Char) :
    ∀ seg ∈ rustLines s, '\n' ∉ seg := by
  intro seg hseg
  rw [rustLines] at hseg
  by_cases hl : (splitOnNl s).getLastD [] = []
  · rw [if_pos hl] at hseg
    rw [List.mem_map] at hseg
    obtain ⟨a, ha, rfl⟩ := hseg
    exact stripCr_no_nl a (mem_splitOnNl_no_nl s a (List.dropLast_subset _ ha))
  · rw [if_neg hl] at hseg
    rw [List.mem_append] at hseg
    rcases hseg with hseg | hseg
    · rw [List.mem_map] at hseg
      obtain ⟨a, ha, rfl⟩ := hseg
      exact stripCr_no_nl a (mem_splitOnNl_no_nl s a (List.dropLast_subset _ ha))
    · rw [List.mem_singleton] at hseg
      subst hseg
      exact mem_splitOnNl_no_nl s _ (getLastD_mem _ _ (splitOnNl_ne_nil s))

theorem dropWhile_replicate_space (n : Nat) (x : List Char) :
    List.dropWhile (fun c => decide (c = ' ')) (List.replicate n ' ' ++ x)
      = List.dropWhile (fun c => decide (c = ' ')) x := by
  induction n with
  | zero => simp
  | succ n ih =>
    rw [List.replicate_succ, List.cons_append, List.dropWhile_cons]
    simp [ih]

theorem commentLine_isComment (n : Nat) (line : List Char) :
    isCommentLine (commentLine (List.replicate n ' ') line) = true := by
  rw [commentLine]
  by_cases hl : line = []
  · rw [if_pos hl, isCommentLine]
    rw [show List.replicate n ' ' = List.replicate n ' ' ++ [] by simp,
      dropWhile_replicate_space]
    rfl
  · rw [if_neg hl, isCommentLine, dropWhile_replicate_space, List.dropWhile_cons]
    simp

theorem commentLine_no_nl (n : Nat) (line : List Char) (h : '\n' ∉ line) :
    '\n' ∉ commentLine (List.replicate n ' ') line := by
  rw [commentLine]
  by_cases hl : line = []
  · rw [if_pos hl]
    intro hm
    exact absurd (List.eq_of_mem_replicate hm) (by decide)
  · rw [if_neg hl]
    intro hm
    rcases List.mem_append.mp hm with hm | hm
    · exact absurd (List.eq_of_mem_replicate hm) (by decide)
    · rw [List.mem_cons] at hm
      rcases hm with hm | hm
      · exact absurd hm (by decide)
      · rw [List.mem_cons] at hm
        rcases hm with hm | hm
        · exact absurd hm (by decide)
        · exact h hm

theorem unlinesT_map (f : List Char → List Char) (l : List (List Char)) :
    unlinesT (l.map f) = l.flatMap (fun x => f x ++ ['\n']) := by
  induction l with
  | nil => rfl
  | cons a t ih => simp [unlinesT] at ih ⊢; rw [ih]

theorem mem_commentLinesFor (cb : KeyData → Option (List Char)) (buf : List Char) :
    ∀ l ∈ commentLinesFor cb buf, isCommentLine l = true ∧ '\n' ∉ l := by
  intro l hl
  rcases hk : get_key_name buf with _ | key
  · simp [commentLinesFor, hk] at hl
  · rcases hcb : cb key with _ | s
    · simp [commentLinesFor, hk, hcb] at hl
    · simp only [commentLinesFor, hk, hcb, List.mem_map] at hl
      obtain ⟨a, ha, rfl⟩ := hl
      exact ⟨commentLine_isComment _ a,
        commentLine_no_nl _ a (mem_rustLines_no_nl s a ha)⟩

theorem commentTextFor_unlines (cb : KeyData → Option (List Char)) (buf : List Char) :
    commentTextFor cb buf = unlinesT (commentLinesFor cb buf) := by
  rcases hk : get_key_name buf with _ | key
  · simp [commentTextFor, commentLinesFor, hk, unlinesT]
  · rcases hcb : cb key with _ | s
    · simp [commentTextFor, commentLinesFor, hk, hcb, unlinesT]
    · simp only [commentTextFor, commentLinesFor, hk, hcb]
      rw [unlinesT_map, renderComment]

theorem out_as_unlines (cb : KeyData → Option (List Char)) (ls : List (List Char)) :
    ls.flatMap (fun l => commentTextFor cb (l ++ ['\n']) ++ (l ++ ['\n']))
      = unlinesT (ls.flatMap (fun l => commentLinesFor cb (l ++ ['\n']) ++ [l])) := by
  induction ls with
  | nil => rfl
  | cons l ls ih =>
    rw [List.flatMap_cons, List.flatMap_cons, ih, commentTextFor_unlines]
    simp [unlinesT]

theorem filter_not_of_all {α : Type} (p : α → Bool) (l : List α)
    (h : ∀ a ∈ l, p a = true) : l.filter (fun a => ! p a) = [] := by
  induction l with
  | nil => rfl
  | cons a t ih =>
    have ha : p a = true := h a (List.mem_cons_self a t)
    rw [List.filter_cons]
    simp only [ha]
    exact ih (fun x hx => h x (List.mem_cons_of_mem a hx))

theorem filter_erases_comments (cb : KeyData → Option (List Char)) (ls : List (List Char)) :
    (ls.flatMap (fun l => commentLinesFor cb (l ++ ['\n']) ++ [l])).filter
        (fun l => ! isCommentLine l)
      = ls.filter (fun l => ! isCommentLine l) := by
  induction ls with
  | nil => rfl
  | cons l ls ih =>
    rw [List.flatMap_cons, List.filter_append, List.filter_append, ih,
      filter_not_of_all _ _ (fun a ha => (mem_commentLinesFor cb (l ++ ['\n']) a ha).1),
      List.nil_append]
    cases hq : isCommentLine l <;> simp [List.filter_cons, hq]

theorem filter_idem {α : Type} (p : α → Bool) (l : List α) :
    (l.filter p).filter p = l.filter p := by
  induction l with
  | nil => rfl
  | cons a t ih => cases h : p a <;> simp [List.filter_cons, h, ih]

theorem get_key_name_eq (str : List Char) (s e : Nat)
    (h : getKeyLoop str 0 none none = some (s, e)) :
    get_key_name str = some ⟨sliceBytes str 0 s (e + 1), s⟩ := by
  rw [get_key_name, h]

theorem docNextAux_yield (ls : List (List Char)) :
    ∀ buf : List (List Char), buf ≠ [] →
      ∃ ext, (docNextAux buf ls).1 = some (List.intercalate ['\n'] (buf ++ ext)) := by
  induction ls with
  | nil =>
    intro buf h
    refine ⟨[], ?_⟩
    simp [docNextAux, h]
  | cons l rest ih =>
    intro buf h
    by_cases hsep : startsWithSep l ∧ ¬ buf.isEmpty
    · refine ⟨[], ?_⟩
      rw [docNextAux, if_pos hsep]
      simp
    · obtain ⟨ext, hext⟩ := ih (buf ++ [l]) (by simp)
      refine ⟨l :: ext, ?_⟩
      rw [docNextAux, if_neg hsep, hext]
      simp

/-!
## The claims
-/

/-- C1 counterexample: on the line `"a: b:c"` — indentation empty, key
name `"a"`, colon, suffix `" b:c"` containing a colon — `get_key_name`
reports the key text `"a: b"` (the scan lets the *last* colon of the line
set the end index), not the key name `"a"` the claim requires; and on
`" a: x"` — one non-ASCII whitespace character of indentation — it
reports column 2 (a byte offset), not the character count 1. -/
theorem c1_counterexample :
    (get_key_name "a: b:c".data = some ⟨"a: b".data, 0⟩ ∧ "a: b".data ≠ "a".data) ∧
      (get_key_name " a: x".data = some ⟨"a".data, 2⟩ ∧ (2 : Nat) ≠ 1) := by
  decide

/-- C1 amended: for every line of leading whitespace/markers, then a key
name (whose first character is not a marker, whitespace or control
character) containing no colon and no hash, then a colon, then a suffix
containing no further colon, `get_key_name` returns the key name with
column equal to the UTF-8 byte width of the leading characters. -/
theorem c1_key_recognizer (pre krest suffix : List Char) (k0 : Char)
    (hpre : ∀ c ∈ pre, skippable c)
    (hkey : ∀ c ∈ k0 :: krest, c ≠ ':' ∧ c ≠ '#')
    (hctl : rustIsControl k0 = false) (hsk : ¬ skippable k0)
    (hsuf : ':' ∉ suffix) :
    get_key_name (pre ++ (k0 :: krest) ++ ':' :: suffix)
      = some ⟨k0 :: krest, utf8Len pre⟩ := by
  have hk0 := hkey k0 (List.mem_cons_self _ _)
  have hkrest : ∀ c ∈ krest, c ≠ ':' ∧ c ≠ '#' :=
    fun c hc => hkey c (List.mem_cons_of_mem _ hc)
  have hszk := utf8Size_pos k0
  have hloop : getKeyLoop (pre ++ (k0 :: krest) ++ ':' :: suffix) 0 none none
      = some (utf8Len pre, utf8Len pre + utf8Size k0 + utf8Len krest - 1) := by
    rw [List.append_assoc, getKeyLoop_pre pre _ 0 hpre, List.cons_append,
      getKeyLoop_key_start k0 _ _ _ hctl hk0.2 hsk hk0.1,
      getKeyLoop_key_run krest _ _ _ hkrest, getKeyLoop_colon,
      getKeyLoop_suffix _ _ _ _ hsuf]
    simp only [Option.some.injEq, Prod.mk.injEq]
    omega
  rw [get_key_name_eq _ _ _ hloop]
  have he : utf8Len pre + utf8Size k0 + utf8Len krest - 1 + 1
      = utf8Len pre + utf8Len (k0 :: krest) := by
    rw [utf8Len_cons]; omega
  rw [he, List.append_assoc, sliceBytes_append,
    sliceBytes_below pre 0 _ _ (by omega), sliceBytes_append,
    sliceBytes_all (k0 :: krest) _ _ _ (by omega) (by omega),
    sliceBytes_above _ _ _ _ (by omega)]
  simp

/-- C1 witness: the amended statement applied to the line `"  foo: bar"`. -/
theorem c1_witness :
    get_key_name "  foo: bar".data = some ⟨"foo".data, utf8Len "  ".data⟩ :=
  c1_key_recognizer "  ".data "oo".data " bar".data 'f'
    (by decide) (by decide) (by decide) (by decide) (by decide)

/-- C2: encoding the mapping `{name: "John Doe", age: 30}` (encoder stream
modelled from the spec as `"name: John Doe\nage: 30\n"`) through the
comment-injecting filter with the resolver mapping `"name"` and `"age"` to
their comments produces exactly the expected commented text on the sink. -/
theorem c2_concrete_comment_injection :
    (commenterSession personResolver [personEncoded]).out =
      "# The name of the person.\nname: John Doe\n# The age of the person.\n# In years.\nage: 30\n".data := by
  decide

/-- C3: with a resolver that always returns `none`, a full filter session
over any sequence of write chunks delivers to the underlying sink exactly
the concatenation of the chunks — byte-identical to the unwrapped writer. -/
theorem c3_none_resolver_identity (chunks : List (List Char)) :
    (commenterSession (fun _ => none) chunks).out = chunks.flatten := by
  have h := foldl_writeChars_none_inv chunks initCState
  rcases flush_buffer_none (chunks.foldl (writeChars (fun _ => none)) initCState)
    with ⟨h1, _⟩
  show (commenterFlush (fun _ => none)
      (chunks.foldl (writeChars (fun _ => none)) initCState)).out = chunks.flatten
  rw [commenterFlush, h1, h]
  simp [initCState]

/-- C4: `Commenter::write` returns `Ok` with the full chunk length whenever
the chunk is valid UTF-8 — even when the chunk contains no newline, so
everything stays in the line buffer and nothing reaches the sink — and on
invalid UTF-8 it returns an error leaving the line buffer and the sink
untouched. -/
theorem c4_write_contract (cb : KeyData → Option (List Char)) (st : CState)
    (buf : List Nat) :
    (∀ s, utf8Decode buf = some s →
        (commenterWrite cb st buf).2 = Except.ok buf.length ∧
          ('\n' ∉ s → commenterWrite cb st buf
              = (⟨st.out, st.dbg, st.buffer ++ s⟩, Except.ok buf.length))) ∧
      (utf8Decode buf = none → commenterWrite cb st buf = (st, Except.error ())) := by
  constructor
  · intro s hs
    constructor
    · simp [commenterWrite, hs]
    · intro hnl
      simp only [commenterWrite, hs]
      rw [writeChars_no_nl cb s st hnl]
  · intro h
    simp [commenterWrite, h]

/-- C4 witness: writing the valid chunk `"ab"` returns `Ok 2` with the two
bytes buffered and nothing forwarded; writing the invalid chunk `[0xC3]`
returns an error with the state unchanged. -/
theorem c4_witness :
    commenterWrite (fun _ => none) initCState [0x61, 0x62]
        = (⟨[], [], "ab".data⟩, Except.ok 2) ∧
      commenterWrite (fun _ => none) initCState [0xC3]
        = (initCState, Except.error ()) :=
  ⟨((c4_write_contract (fun _ => none) initCState [0x61, 0x62]).1
      "ab".data (by decide)).2 (by decide),
    (c4_write_contract (fun _ => none) initCState [0xC3]).2 (by decide)⟩

/-- C5: `append_or_new` writes `"\n---\n"` (a blank line then the `---`
separator line, for newline-terminated content) before the new document
exactly when the file is non-empty, and writes the document alone into an
empty or nonexistent file; concretely, appending `{a: 1, b: "hello"}` to a
file holding `"a: 2\nb: world\n"` yields the expected combined content
(the encoder streams are modelled from the spec). -/
theorem c5_append_or_new :
    (∀ content encoded : List Char, content ≠ [] →
        append_or_new content encoded = content ++ "\n---\n".data ++ encoded) ∧
      (∀ encoded : List Char, append_or_new [] encoded = encoded) ∧
      append_or_new "a: 2\nb: world\n".data "a: 1\nb: hello\n".data
        = "a: 2\nb: world\n\n---\na: 1\nb: hello\n".data := by
  refine ⟨?_, ?_, ?_⟩
  · intro c e hc
    rw [append_or_new, if_pos (fun h0 => hc (List.length_eq_zero.mp h0))]
  · intro e
    rfl
  · decide

/-- C5 witness: the non-empty-file equation applied to concrete content. -/
theorem c5_witness :
    append_or_new "x: 0\n".data "y: 1\n".data
      = "x: 0\n".data ++ "\n---\n".data ++ "y: 1\n".data :=
  c5_append_or_new.1 _ _ (by decide)

/-- C6 counterexample: a separator line seen with an empty buffer is pushed
into the buffer, so for the file lines `["---", "---", "a: 1"]` the first
yielded document is the separator itself (`"---"`, an empty YAML document),
and for `["---", "a: 1"]` the yielded document text contains the separator
as its first line — it does contribute to yielded documents. -/
theorem c6_counterexample :
    (lazyDocStartNext ["---".data, "---".data, "a: 1".data]).1 = some "---".data ∧
      (lazyDocStartNext ["---".data, "a: 1".data]).1 = some "---\na: 1".data := by
  decide

/-- C6 amended: a separator line encountered while nothing is buffered is
not a document boundary — it never yields an empty document and never ends
iteration there — but it is buffered like any other line and becomes the
first line of the next yielded document (where a lone leading separator is
a YAML document-start marker the decoder ignores). -/
theorem c6_separator_buffered (l : List Char) (rest : List (List Char))
    (hsep : startsWithSep l = true) :
    ∃ ext, (lazyDocStartNext (l :: rest)).1
        = some (List.intercalate ['\n'] (l :: ext)) := by
  rw [lazyDocStartNext, docNextAux, if_neg (fun hx => hx.2 rfl)]
  exact docNextAux_yield rest [l] (by simp)

/-- C6 witness: the amended statement applied to a concrete file. -/
theorem c6_witness :
    ∃ ext, (lazyDocStartNext ["---".data, "a: 1".data]).1
        = some (List.intercalate ['\n'] ("---".data :: ext)) :=
  c6_separator_buffered "---".data ["a: 1".data] (by decide)

/-- C7 counterexample: with a decoder that fails on every document, reading
the one-document file `["a: 1"]` yields `(none, [])` — exactly what the
empty file yields — and a failing typed deserializer in `LazyDocs::next`
behaves the same: the typed error is discarded by `.ok()`, not propagated. -/
theorem c7_counterexample :
    lazyValuesNext (fun _ => (Except.error () : Except Unit Unit)) ["a: 1".data]
        = (none, []) ∧
      lazyValuesNext (fun _ => (Except.error () : Except Unit Unit))
          ([] : List (List Char)) = (none, []) ∧
      lazyDocsNext (fun s => (Except.ok s : Except Unit (List Char)))
          (fun _ => (Except.error () : Except Unit Unit)) ["a: 1".data]
        = (none, []) := by
  refine ⟨?_, ?_, ?_⟩ <;> decide

/-- C7 amended: a parse failure in `LazyValues::next`, or a
deserialization failure in `LazyDocs::next`, is mapped to `none` via
`.ok()` — the document is silently dropped and iteration ends,
indistinguishably from end of input; no typed error reaches the caller on
this path. -/
theorem c7_errors_swallowed :
    (∀ (E V : Type) (parse : List Char → Except E V) (e : E)
        (ls : List (List Char)) (s : List Char) (rest : List (List Char)),
        lazyDocStartNext ls = (some s, rest) → parse s = Except.error e →
          lazyValuesNext parse ls = (none, rest)) ∧
      (∀ (E V E2 T : Type) (parse : List Char → Except E V)
        (deser : V → Except E2 T) (e2 : E2) (ls : List (List Char))
        (s : List Char) (rest : List (List Char)) (v : V),
        lazyDocStartNext ls = (some s, rest) → parse s = Except.ok v →
          deser v = Except.error e2 → lazyDocsNext parse deser ls = (none, rest)) := by
  constructor
  · intro E V parse e ls s rest h1 h2
    simp [lazyValuesNext, h1, h2, Except.toOption]
  · intro E V E2 T parse deser e2 ls s rest v h1 h2 h3
    simp [lazyDocsNext, lazyValuesNext, h1, h2, h3, Except.toOption]

/-- C7 witness: the amended statement applied to a concrete failing parse
and a concrete failing deserializer. -/
theorem c7_witness :
    lazyValuesNext (fun _ => (Except.error 7 : Except Nat Unit)) ["b: 2".data]
        = (none, []) ∧
      lazyDocsNext (fun s => (Except.ok s : Except Unit (List Char)))
          (fun _ => (Except.error 9 : Except Nat Unit)) ["b: 2".data]
        = (none, []) :=
  ⟨c7_errors_swallowed.1 Nat Unit _ 7 _ "b: 2".data [] (by decide) rfl,
    c7_errors_swallowed.2 Unit (List Char) Nat Unit _ _ 9 _ "b: 2".data []
      "b: 2".data (by decide) rfl rfl⟩

/-- C8: evaluating the filter at a concrete session shows the
`println!("key data: {key:?}")` in `flush_buffer` emits one stdout record
per recognized key — an observable effect besides the sink writes — while
the line-buffer part of the claim does hold (empty at session start and
after the terminal flush). -/
theorem c8_stdout_debug_effect :
    (commenterSession personResolver [personEncoded]).dbg
        = [⟨"name".data, 0⟩, ⟨"age".data, 0⟩] ∧
      (commenterSession personResolver [personEncoded]).dbg ≠ [] ∧
      initCState.buffer = [] ∧
      (commenterSession personResolver [personEncoded]).buffer = [] := by
  decide

/-- C9: for every value, encoder line stream and resolver, if the decoder
inverts the encoder and ignores comment lines (lines of optional spaces
followed by nothing or `'#'`), then decoding the filter's output yields the
original value: the filter only interleaves comment lines with the
original lines, which erasure removes. -/
theorem c9_round_trip (VT : Type) (v : VT) (encLines : List (List Char))
    (cb : KeyData → Option (List Char))
    (decodeL : List (List Char) → Option VT)
    (hnl : ∀ l ∈ encLines, '\n' ∉ l)
    (hdec : ∀ t : List (List Char),
      decodeL (t.filter (fun l => ! isCommentLine l)) = decodeL t)
    (henc : decodeL encLines = some v) :
    decodeL (linesT ((commenterSession cb [unlinesT encLines]).out)) = some v := by
  rw [session_unlines cb encLines hnl]
  show decodeL (linesT (encLines.flatMap
      (fun l => commentTextFor cb (l ++ ['\n']) ++ (l ++ ['\n'])))) = some v
  rw [out_as_unlines, linesT_unlines]
  · rw [← hdec, filter_erases_comments, hdec, henc]
  · intro l hl
    rw [List.mem_flatMap] at hl
    obtain ⟨x, hx, hl⟩ := hl
    rw [List.mem_append] at hl
    rcases hl with hl | hl
    · exact (mem_commentLinesFor cb (x ++ ['\n']) l hl).2
    · rw [List.mem_singleton] at hl
      subst hl
      exact hnl _ hx

/-- C9 witness: the round trip applied to the one-line document `"a: 1"`,
a resolver that always returns the comment `"c"`, and the decoder that
erases comment lines and returns the remaining lines. -/
theorem c9_witness :
    some ((linesT ((commenterSession (fun _ => some "c".data)
        [unlinesT ["a: 1".data]]).out)).filter (fun l => ! isCommentLine l))
      = some ["a: 1".data] :=
  c9_round_trip (List (List Char)) ["a: 1".data] ["a: 1".data]
    (fun _ => some "c".data)
    (fun t => some (t.filter (fun l => ! isCommentLine l)))
    (by decide)
    (fun t => congrArg some (filter_idem _ t))
    (by decide)

/-- C10: the byte pair `[0xC3, 0xA9]` (the UTF-8 encoding of `'é'`) is
valid as one stream, but a write call receiving only its first byte fails
with an encoding error and changes nothing — `Commenter::write` validates
UTF-8 per call, not over the concatenated stream. -/
theorem c10_split_write_fails :
    utf8Decode [0xC3] = none ∧
      utf8Decode [0xC3, 0xA9] = some ['é'] ∧
      commenterWrite (fun _ => none) initCState [0xC3]
        = (initCState, Except.error ()) :=
  ⟨by decide, by decide, rfl⟩

end Syt

